/-
A verification development for the 20-Newsgroups tutorial pipeline
(`tensorflow_tutorial_1.ipynb` and `tensorflow_tutorial_2.ipynb`).

The first notebook walks a corpus directory, sorts the file paths, derives
integer labels from parent-directory names (`np.unique` with
`return_inverse=True`), vectorizes the documents with
`TfidfVectorizer(stop_words='english', max_features=10000)`, splits them
with `StratifiedShuffleSplit(2, test_size=0.2, random_state=0)` and saves
the arrays with `np.savez_compressed`.  The second notebook loads the
archive, fits an `MLPClassifier` and reports `accuracy_score` and a
classification report.

The notebook glue code is embedded directly.  The library calls
(vectorizer, splitter, accuracy) are not part of this repository, so they
are modelled from the specification's description of their behaviour; each
such definition carries a doc comment saying exactly what is modelled.
-/
import Mathlib

namespace Newsgroup

/-! ### A small reducible insertion sort

Used to embed Python's `sorted` and NumPy's sorting of unique values.
It is kept local so that every definition evaluates by kernel reduction. -/

def insertLe {α : Type} (le : α → α → Bool) (a : α) : List α → List α
  | [] => [a]
  | b :: l => if le a b then a :: b :: l else b :: insertLe le a l

def sortBy {α : Type} (le : α → α → Bool) : List α → List α
  | [] => []
  | a :: l => insertLe le a (sortBy le l)

/-- Lexicographic comparison of character lists by code point, the order
Python's `sorted` and NumPy's `np.unique` use on strings.  (Equivalent to
`≤` on `String`, but defined by structural recursion so that it evaluates
by kernel reduction.) -/
def charsLe : List Char → List Char → Bool
  | [], _ => true
  | _ :: _, [] => false
  | c :: cs, d :: ds =>
    if c.val.toNat < d.val.toNat then true
    else if d.val.toNat < c.val.toNat then false
    else charsLe cs ds

/-- The lexicographic order on strings. -/
def strLe (a b : String) : Bool := charsLe a.data b.data

/-! ### Corpus loader (notebook 1, cells 2-3)

`find_files` recursively walks the corpus root and yields full paths.  The
walk's output is taken as the input of the embedding: a list of files, each
carrying the name of its parent directory (its category), its file name and
its tokenized content.  `os.path.basename(os.path.dirname(path))` is the
`dir` field; `os.path.join` builds the full path. -/

structure NgFile where
  dir : String
  name : String
  content : List String
deriving DecidableEq

def fullPath (f : NgFile) : String := f.dir ++ "/" ++ f.name

/-- `newsgroup_files = sorted(find_files('./resources/20news-18828/'))`:
the walk output sorted by full path. -/
def newsgroup_files (walk : List NgFile) : List NgFile :=
  sortBy (fun a b => strLe (fullPath a) (fullPath b)) walk

/-- `np.unique(xs, return_inverse=True)`: the sorted list of distinct
values, paired with the inverse mapping sending each position of `xs` to
the index of its value in that sorted list. -/
def np_unique (xs : List String) : List String × List Nat :=
  let u := sortBy strLe xs.dedup
  (u, xs.map (fun s => u.indexOf s))

/-- `labels`: the names of the categories (cell 3). -/
def labels (walk : List NgFile) : List String :=
  (np_unique ((newsgroup_files walk).map NgFile.dir)).1

/-- `target`: the integer encoding of each document's category (cell 3). -/
def target (walk : List NgFile) : List Nat :=
  (np_unique ((newsgroup_files walk).map NgFile.dir)).2

/-! ### Vectorizer (notebook 1, cell 4)

Modelled from the spec: `TfidfVectorizer(input='filename',
decode_error='replace', stop_words='english', max_features=10000)` is
external library code.  The spec describes it as: stop-word removal
(English), a cap keeping the `max_features` highest-scoring terms, and
term-frequency/inverse-document-frequency weights — "weight the word by
the number of times it appears and inversely by the number of documents it
appears" in.  The stop-word list is a parameter `sw`; the score of a term
is its total frequency across the corpus after stop-word removal, ties
broken lexicographically; the weight is `tf * (#docs / df)` over `ℚ`. -/

def removeStop (sw : List String) (d : List String) : List String :=
  d.filter (fun w => decide (w ∉ sw))

/-- The distinct terms of the corpus after stop-word removal. -/
def corpusTerms (sw : List String) (docs : List (List String)) : List String :=
  ((docs.map (removeStop sw)).flatten).dedup

/-- A term's score: its total frequency across the corpus after stop-word
removal. -/
def termScore (sw : List String) (docs : List (List String)) (t : String) : Nat :=
  ((docs.map (removeStop sw)).flatten).count t

/-- Vocabulary ordering: higher score first, ties broken by the term. -/
def scoreLe (sw : List String) (docs : List (List String)) (a b : String) : Bool :=
  decide (termScore sw docs b < termScore sw docs a) ||
    (decide (termScore sw docs a = termScore sw docs b) && strLe a b)

/-- The retained vocabulary: the `mf` highest-scoring terms. -/
def vocabulary (sw : List String) (mf : Nat) (docs : List (List String)) : List String :=
  (sortBy (scoreLe sw docs) (corpusTerms sw docs)).take mf

/-- Number of documents containing term `t` (after stop-word removal). -/
def docFreq (sw : List String) (docs : List (List String)) (t : String) : Nat :=
  (docs.map (removeStop sw)).countP (fun d => d.contains t)

/-- The TF-IDF weight of term `t` in document `d`. -/
def tfidf (sw : List String) (docs : List (List String)) (d : List String)
    (t : String) : ℚ :=
  ((removeStop sw d).count t : ℚ) * ((docs.length : ℚ) / (docFreq sw docs t : ℚ))

/-- One row of the feature matrix: the document's weight on each
vocabulary term, in vocabulary order. -/
def tfidfRow (sw : List String) (mf : Nat) (docs : List (List String))
    (d : List String) : List ℚ :=
  (vocabulary sw mf docs).map (tfidf sw docs d)

/-- `vectorizer.fit_transform(newsgroup_files).toarray()`: one row per
document, in document order. -/
def fit_transform (sw : List String) (mf : Nat) (docs : List (List String)) :
    List (List ℚ) :=
  docs.map (tfidfRow sw mf docs)

/-- `document_matrix` (cell 4): the dense TF-IDF matrix of the sorted
corpus, with `max_features=10000`. -/
def document_matrix (sw : List String) (walk : List NgFile) : List (List ℚ) :=
  fit_transform sw 10000 ((newsgroup_files walk).map NgFile.content)

/-! ### Splitter (notebook 1, cell 5)

Modelled from the spec: `StratifiedShuffleSplit(2, test_size=0.2,
random_state=0)` is external library code.  The spec describes it as a
deterministic function of the label vector and the fixed seed producing
two index sets: per class, a seeded shuffle of that class's indices, the
first fifth (rounding down) going to the test set and the rest to the
train set.  The feature matrix contributes nothing beyond its row count,
which equals the label vector's length.  The seeded shuffle is modelled as
a seed-determined rotation of the class's index list. -/

def lcgNext (s : Nat) : Nat := (s * 1103515245 + 12345) % (2 ^ 31)

def seededShuffle (seed : Nat) (l : List Nat) : List Nat :=
  l.rotate (lcgNext seed % (l.length + 1))

/-- The positions of label `c` in the label vector `y`. -/
def classIndices (y : List Nat) (c : Nat) : List Nat :=
  (List.range y.length).filter (fun i => y.getD i 0 == c)

/-- The distinct classes of `y`, in sorted order. -/
def classesOf (y : List Nat) : List Nat :=
  sortBy (fun a b => decide (a ≤ b)) y.dedup

/-- The seeded shuffle of class `c`'s indices. -/
def classShuffled (y : List Nat) (seed c : Nat) : List Nat :=
  seededShuffle (seed + c) (classIndices y c)

/-- The train indices contributed by class `c`: all but the first fifth of
its shuffled indices. -/
def classTrain (y : List Nat) (seed c : Nat) : List Nat :=
  (classShuffled y seed c).drop ((classShuffled y seed c).length / 5)

/-- The test indices contributed by class `c`: the first fifth (rounded
down) of its shuffled indices. -/
def classTest (y : List Nat) (seed c : Nat) : List Nat :=
  (classShuffled y seed c).take ((classShuffled y seed c).length / 5)

/-- Per class: the (train, test) pair of index lists. -/
def splitParts (y : List Nat) (seed : Nat) : List (List Nat × List Nat) :=
  (classesOf y).map (fun c => (classTrain y seed c, classTest y seed c))

/-- `next(sss.split(document_matrix, target))`: the train and test index
lists. -/
def stratifiedSplit (y : List Nat) (seed : Nat) : List Nat × List Nat :=
  (((splitParts y seed).map Prod.fst).flatten,
   ((splitParts y seed).map Prod.snd).flatten)

def train_idx (y : List Nat) (seed : Nat) : List Nat := (stratifiedSplit y seed).1

def test_idx (y : List Nat) (seed : Nat) : List Nat := (stratifiedSplit y seed).2

/-- `train_target = target[train_idx]` (cell 5). -/
def train_target (y : List Nat) (seed : Nat) : List Nat :=
  (train_idx y seed).map (fun i => y.getD i 0)

/-- `test_target = target[test_idx]` (cell 5). -/
def test_target (y : List Nat) (seed : Nat) : List Nat :=
  (test_idx y seed).map (fun i => y.getD i 0)

/-! ### The full first notebook, and its one write -/

/-- The message of the only assertion in the pipeline (cell 3). -/
def assertMsg : String := "The files of the resource were not found"

/-- The artifact saved by `np.savez_compressed` (cell 5). -/
structure Artifact where
  train_data : List (List ℚ)
  train_target : List Nat
  test_data : List (List ℚ)
  test_target : List Nat
  labels : List String
deriving DecidableEq

/-- Notebook 1, cells 3-5, as one fallible computation: sort the walked
files, assert the list is non-empty, derive labels and targets, vectorize,
split with `random_state=0`, and assemble the arrays that
`np.savez_compressed` writes. -/
def pipeline1 (sw : List String) (walk : List NgFile) : Except String Artifact :=
  let files := newsgroup_files walk
  if files.length = 0 then Except.error assertMsg
  else
    let lt := np_unique (files.map NgFile.dir)
    let dm := fit_transform sw 10000 (files.map NgFile.content)
    let ti := stratifiedSplit lt.2 0
    Except.ok
      { train_data := ti.1.map (fun i => dm.getD i []),
        train_target := ti.1.map (fun i => lt.2.getD i 0),
        test_data := ti.2.map (fun i => dm.getD i []),
        test_target := ti.2.map (fun i => lt.2.getD i 0),
        labels := lt.1 }

/-- The filesystem seen by the notebook: paths mapped to saved archives. -/
def Store : Type := List (String × Artifact)

def writeStore (fs : Store) (path : String) (a : Artifact) : Store :=
  (path, a) :: fs

def readStore (fs : Store) (path : String) : Option Artifact :=
  (List.find? (fun p => p.1 == path) fs).map Prod.snd

def npzPath : String := "./resources/newsgroup.npz"

/-- Running notebook 1 against a filesystem: the archive is written only
when the pipeline reaches `np.savez_compressed`; the assertion failure
leaves the filesystem untouched. -/
def run1 (sw : List String) (fs : Store) (walk : List NgFile) :
    Store × Except String Unit :=
  match pipeline1 sw walk with
  | Except.error e => (fs, Except.error e)
  | Except.ok a => (writeStore fs npzPath a, Except.ok ())

/-! ### Evaluator (notebook 2, cell 3)

Modelled from the spec: `accuracy_score(y_true, y_pred)` is external
library code; the spec describes it as the number of test documents whose
predicted label equals the true label divided by the total number of test
documents. -/

def accuracy_score (yTrue yPred : List Nat) : ℚ :=
  (((yTrue.zip yPred).countP (fun p => p.1 == p.2) : ℚ)) / ((yTrue.length : ℚ))

/-- The fitted model is opaque library state; the embedding takes its
prediction function as a parameter.  `accuracy = accuracy_score(
newsgroups['test_target'], model.predict(newsgroups['test_data']))`. -/
def evalAccuracy (predict : List ℚ → Nat) (testData : List (List ℚ))
    (testTarget : List Nat) : ℚ :=
  accuracy_score testTarget (testData.map predict)

/-! ## Theorems

### Sorting lemmas -/

theorem insertLe_perm {α : Type} (le : α → α → Bool) (a : α) (l : List α) :
    List.Perm (insertLe le a l) (a :: l) := by
  induction l with
  | nil => simp [insertLe]
  | cons b l ih =>
    simp only [insertLe]
    split
    · exact List.Perm.refl _
    · exact (ih.cons b).trans (List.Perm.swap a b l)

theorem sortBy_perm {α : Type} (le : α → α → Bool) (l : List α) :
    List.Perm (sortBy le l) l := by
  induction l with
  | nil => exact List.Perm.refl _
  | cons a l ih => exact (insertLe_perm le a _).trans (ih.cons a)

theorem mem_insertLe {α : Type} (le : α → α → Bool) (a x : α) (l : List α) :
    x ∈ insertLe le a l ↔ x ∈ a :: l :=
  (insertLe_perm le a l).mem_iff

theorem insertLe_pairwise {α : Type} (le : α → α → Bool)
    (hto : ∀ x y, le x y = true ∨ le y x = true)
    (htr : ∀ x y z, le x y = true → le y z = true → le x z = true)
    (a : α) (l : List α) (hl : l.Pairwise (fun x y => le x y = true)) :
    (insertLe le a l).Pairwise (fun x y => le x y = true) := by
  induction l with
  | nil => simp [insertLe]
  | cons b l ih =>
    rw [List.pairwise_cons] at hl
    obtain ⟨hb, hl⟩ := hl
    simp only [insertLe]
    by_cases h : le a b = true
    · rw [if_pos h]
      refine List.Pairwise.cons ?_ (List.Pairwise.cons hb hl)
      intro x hx
      rcases List.mem_cons.mp hx with rfl | hx
      · exact h
      · exact htr a b x h (hb x hx)
    · rw [if_neg h]
      refine List.Pairwise.cons ?_ (ih hl)
      intro x hx
      rcases List.mem_cons.mp ((mem_insertLe le a x l).mp hx) with rfl | hx
      · rcases hto x b with h1 | h1
        · exact absurd h1 h
        · exact h1
      · exact hb x hx

theorem sortBy_pairwise {α : Type} (le : α → α → Bool)
    (hto : ∀ x y, le x y = true ∨ le y x = true)
    (htr : ∀ x y z, le x y = true → le y z = true → le x z = true)
    (l : List α) : (sortBy le l).Pairwise (fun x y => le x y = true) := by
  induction l with
  | nil => simp [sortBy]
  | cons a l ih => exact insertLe_pairwise le hto htr a _ ih

theorem sortBy_length {α : Type} (le : α → α → Bool) (l : List α) :
    (sortBy le l).length = l.length :=
  (sortBy_perm le l).length_eq

/-! ### The string order -/

theorem charsLe_iff : ∀ cs ds : List Char, charsLe cs ds = true ↔ ¬ ds < cs
  | [], ds => by
    simp only [charsLe]
    exact iff_of_true trivial (List.Lex.not_nil_right _ _)
  | c :: cs, [] => by
    simp only [charsLe]
    exact iff_of_false (by simp) (not_not_intro (List.nil_lt_cons c cs))
  | c :: cs, d :: ds => by
    simp only [charsLe]
    by_cases h1 : c.val.toNat < d.val.toNat
    · rw [if_pos h1]
      refine iff_of_true rfl ?_
      intro hlt
      cases hlt with
      | cons h => exact absurd h1 (lt_irrefl _)
      | rel h => exact absurd h1 (Nat.lt_asymm h)
    · rw [if_neg h1]
      by_cases h2 : d.val.toNat < c.val.toNat
      · rw [if_pos h2]
        exact iff_of_false (by simp) (not_not_intro (List.Lex.rel h2))
      · rw [if_neg h2]
        have hv : c.val = d.val :=
          UInt32.ext (Nat.le_antisymm (Nat.not_lt.mp h2) (Nat.not_lt.mp h1))
        have hcd : c = d := Char.ext hv
        subst hcd
        exact (charsLe_iff cs ds).trans (not_congr List.Lex.cons_iff).symm

theorem strLe_iff (a b : String) : strLe a b = true ↔ a ≤ b :=
  (charsLe_iff a.data b.data).trans
    (not_lt.trans String.le_iff_toList_le.symm)

theorem strLe_total (a b : String) : strLe a b = true ∨ strLe b a = true := by
  rcases le_total a b with h | h
  · exact Or.inl ((strLe_iff a b).mpr h)
  · exact Or.inr ((strLe_iff b a).mpr h)

theorem strLe_trans (a b c : String) (hab : strLe a b = true)
    (hbc : strLe b c = true) : strLe a c = true :=
  (strLe_iff a c).mpr (le_trans ((strLe_iff a b).mp hab) ((strLe_iff b c).mp hbc))

/-! ### Splitter lemmas -/

theorem range_map_getD (y : List Nat) :
    (List.range y.length).map (fun i => y.getD i 0) = y := by
  induction y with
  | nil => rfl
  | cons a l ih =>
    rw [List.length_cons, List.range_succ_eq_map, List.map_cons, List.map_map]
    have h : ((fun i => (a :: l).getD i 0) ∘ Nat.succ) = (fun i => l.getD i 0) := rfl
    rw [h, ih]
    rfl

theorem mem_classIndices {y : List Nat} {c i : Nat} :
    i ∈ classIndices y c ↔ i < y.length ∧ y.getD i 0 = c := by
  simp [classIndices, List.mem_filter, List.mem_range]

theorem nodup_classIndices (y : List Nat) (c : Nat) :
    (classIndices y c).Nodup :=
  (List.nodup_range y.length).filter _

theorem length_classIndices (y : List Nat) (c : Nat) :
    (classIndices y c).length = y.count c := by
  rw [classIndices, ← List.countP_eq_length_filter]
  conv_rhs => rw [← range_map_getD y]
  rw [List.count_eq_countP, List.countP_map]
  rfl

theorem mem_classesOf {y : List Nat} {c : Nat} : c ∈ classesOf y ↔ c ∈ y := by
  rw [classesOf, (sortBy_perm _ _).mem_iff, List.mem_dedup]

theorem nodup_classesOf (y : List Nat) : (classesOf y).Nodup :=
  ((sortBy_perm _ _).nodup_iff).mpr (List.nodup_dedup y)

theorem seededShuffle_perm (seed : Nat) (l : List Nat) :
    List.Perm (seededShuffle seed l) l :=
  List.rotate_perm l _

theorem classShuffled_perm (y : List Nat) (seed c : Nat) :
    List.Perm (classShuffled y seed c) (classIndices y c) :=
  seededShuffle_perm _ _

theorem classShuffled_length (y : List Nat) (seed c : Nat) :
    (classShuffled y seed c).length = y.count c :=
  (classShuffled_perm y seed c).length_eq.trans (length_classIndices y c)

theorem classTrain_append_classTest_perm (y : List Nat) (seed c : Nat) :
    List.Perm (classTrain y seed c ++ classTest y seed c) (classIndices y c) := by
  refine List.Perm.trans List.perm_append_comm ?_
  rw [classTrain, classTest, List.take_append_drop]
  exact classShuffled_perm y seed c

theorem mem_classTest {y : List Nat} {seed c i : Nat}
    (h : i ∈ classTest y seed c) : i ∈ classIndices y c :=
  (classShuffled_perm y seed c).mem_iff.mp (List.mem_of_mem_take h)

theorem mem_classTrain {y : List Nat} {seed c i : Nat}
    (h : i ∈ classTrain y seed c) : i ∈ classIndices y c :=
  (classShuffled_perm y seed c).mem_iff.mp (List.mem_of_mem_drop h)

theorem classTest_length (y : List Nat) (seed c : Nat) :
    (classTest y seed c).length = y.count c / 5 := by
  rw [classTest, List.length_take, classShuffled_length,
    Nat.min_eq_left (Nat.div_le_self _ _)]

theorem classTrain_length (y : List Nat) (seed c : Nat) :
    (classTrain y seed c).length = y.count c - y.count c / 5 := by
  rw [classTrain, List.length_drop, classShuffled_length]

theorem flatten_map_append_perm {α β : Type} (f g : α → List β) (l : List α) :
    List.Perm ((l.map f).flatten ++ (l.map g).flatten)
      ((l.map (fun c => f c ++ g c)).flatten) := by
  induction l with
  | nil => exact List.Perm.refl _
  | cons a l ih =>
    simp only [List.map_cons, List.flatten_cons]
    have h1 : List.Perm
        ((l.map f).flatten ++ (g a ++ (l.map g).flatten))
        (g a ++ ((l.map f).flatten ++ (l.map g).flatten)) := by
      rw [← List.append_assoc, ← List.append_assoc]
      exact List.perm_append_comm.append_right _
    rw [List.append_assoc, List.append_assoc]
    exact List.Perm.append_left (f a)
      (h1.trans (List.Perm.append_left (g a) ih))

theorem flatten_map_perm {α β : Type} (u v : α → List β) (l : List α)
    (h : ∀ c ∈ l, List.Perm (u c) (v c)) :
    List.Perm ((l.map u).flatten) ((l.map v).flatten) := by
  induction l with
  | nil => exact List.Perm.refl _
  | cons a l ih =>
    simp only [List.map_cons, List.flatten_cons]
    exact (h a (List.mem_cons_self a l)).append
      (ih (fun c hc => h c (List.mem_cons_of_mem a hc)))

theorem flatten_classIndices_perm (y : List Nat) :
    List.Perm ((classesOf y).map (classIndices y)).flatten
      (List.range y.length) := by
  have hnd : ((classesOf y).map (classIndices y)).flatten.Nodup := by
    rw [List.nodup_flatten]
    constructor
    · intro l hl
      obtain ⟨c, _, rfl⟩ := List.mem_map.mp hl
      exact nodup_classIndices y c
    · rw [List.pairwise_map]
      refine (nodup_classesOf y).imp ?_
      intro c d hcd i hic hid
      rw [mem_classIndices] at hic hid
      exact hcd (hic.2.symm.trans hid.2)
  refine (List.perm_ext_iff_of_nodup hnd (List.nodup_range y.length)).mpr ?_
  intro i
  rw [List.mem_flatten, List.mem_range]
  constructor
  · rintro ⟨l, hl, hil⟩
    obtain ⟨c, _, rfl⟩ := List.mem_map.mp hl
    exact (mem_classIndices.mp hil).1
  · intro hi
    refine ⟨classIndices y (y.getD i 0), List.mem_map_of_mem _ ?_, ?_⟩
    · rw [mem_classesOf]
      rw [List.getD_eq_getElem y 0 hi]
      exact List.getElem_mem hi
    · exact mem_classIndices.mpr ⟨hi, rfl⟩

theorem train_idx_eq (y : List Nat) (seed : Nat) :
    train_idx y seed = ((classesOf y).map (classTrain y seed)).flatten := by
  rw [train_idx, stratifiedSplit, splitParts]
  simp only [List.map_map]
  rfl

theorem test_idx_eq (y : List Nat) (seed : Nat) :
    test_idx y seed = ((classesOf y).map (classTest y seed)).flatten := by
  rw [test_idx, stratifiedSplit, splitParts]
  simp only [List.map_map]
  rfl

theorem split_perm_range (y : List Nat) (seed : Nat) :
    List.Perm (train_idx y seed ++ test_idx y seed) (List.range y.length) := by
  rw [train_idx_eq, test_idx_eq]
  refine List.Perm.trans
    (flatten_map_append_perm (classTrain y seed) (classTest y seed) (classesOf y)) ?_
  refine List.Perm.trans
    (flatten_map_perm _ (classIndices y) (classesOf y)
      (fun c _ => classTrain_append_classTest_perm y seed c)) ?_
  exact flatten_classIndices_perm y

theorem sum_map_single {l : List Nat} (hn : l.Nodup) {c : Nat} (hc : c ∈ l)
    (f : Nat → Nat) (h0 : ∀ x ∈ l, x ≠ c → f x = 0) : (l.map f).sum = f c := by
  induction l with
  | nil => cases hc
  | cons a l ih =>
    rw [List.map_cons, List.sum_cons]
    rcases List.mem_cons.mp hc with rfl | hc2
    · have hz : (l.map f).sum = 0 := by
        refine List.sum_eq_zero ?_
        intro n hn2
        obtain ⟨x, hx, rfl⟩ := List.mem_map.mp hn2
        exact h0 x (List.mem_cons_of_mem _ hx)
          (fun he => (List.nodup_cons.mp hn).1 (he ▸ hx))
      rw [hz]
      exact Nat.add_zero _
    · have ha : f a = 0 := h0 a (List.mem_cons_self a l)
        (fun he => (List.nodup_cons.mp hn).1 (he ▸ hc2))
      rw [ha, ih (List.nodup_cons.mp hn).2 hc2
        (fun x hx => h0 x (List.mem_cons_of_mem _ hx))]
      exact Nat.zero_add _

/-! ### Claims about the splitter -/

/-- Claim C2: for every two runs of the splitter on the same label vector
with the same seed, the produced train and test index lists are identical —
the split is a deterministic function of its inputs and the seed (the
feature matrix contributes only its row count). -/
theorem split_deterministic (y : List Nat) (s1 s2 : Nat) (h : s1 = s2) :
    train_idx y s1 = train_idx y s2 ∧ test_idx y s1 = test_idx y s2 := by
  subst h
  exact ⟨rfl, rfl⟩

theorem split_deterministic_witness :
    (0 : Nat) = 0 ∧
      (train_idx [0, 1] 0 = train_idx [0, 1] 0 ∧
        test_idx [0, 1] 0 = test_idx [0, 1] 0) :=
  ⟨rfl, split_deterministic [0, 1] 0 0 rfl⟩

/-- Claim C4 (amended): for every non-empty label vector the splitter
partitions the document indices — train and test are disjoint and their
union is the set of all indices; the test subset holds a fraction of
exactly 0.2 of the documents whenever every class's size is divisible
by 5 (in general each class contributes one fifth rounded down). -/
theorem split_partition (y : List Nat) (seed : Nat) (hne : y ≠ []) :
    List.Disjoint (train_idx y seed) (test_idx y seed)
    ∧ (∀ i, (i ∈ train_idx y seed ∨ i ∈ test_idx y seed) ↔ i < y.length)
    ∧ ((∀ c ∈ y, 5 ∣ y.count c) → 5 * (test_idx y seed).length = y.length) := by
  have hperm := split_perm_range y seed
  have hnd : (train_idx y seed ++ test_idx y seed).Nodup :=
    hperm.nodup_iff.mpr (List.nodup_range y.length)
  refine ⟨(List.nodup_append.mp hnd).2.2, ?_, ?_⟩
  · intro i
    rw [← List.mem_append, hperm.mem_iff, List.mem_range]
  · intro hdvd
    have hlen : (test_idx y seed).length =
        ((classesOf y).map (fun c => y.count c / 5)).sum := by
      rw [test_idx_eq, List.length_flatten, List.map_map]
      congr 1
      exact List.map_congr_left (fun c _ => classTest_length y seed c)
    have hlen2 : ((classesOf y).map (fun c => y.count c)).sum = y.length := by
      have h := (flatten_classIndices_perm y).length_eq
      rw [List.length_flatten, List.map_map, List.length_range] at h
      rw [← h]
      congr 1
      refine List.map_congr_left ?_
      intro c _
      exact (length_classIndices y c).symm
    rw [hlen, ← hlen2, ← List.sum_map_mul_left]
    congr 1
    refine List.map_congr_left ?_
    intro c hcm
    exact Nat.mul_div_cancel' (hdvd c (mem_classesOf.mp hcm))

/-- Claim C4 counterexample: on the one-document corpus with label
vector `[0]` the test subset is empty, so it does not hold fraction 0.2
of the documents. -/
theorem split_fraction_counterexample :
    ([0] : List Nat) ≠ [] ∧
      ¬ 5 * (test_idx [0] 0).length = ([0] : List Nat).length := by
  decide

theorem split_partition_witness :
    ([0, 0, 0, 0, 0] : List Nat) ≠ [] ∧
      (List.Disjoint (train_idx [0, 0, 0, 0, 0] 0) (test_idx [0, 0, 0, 0, 0] 0)
      ∧ (∀ i, (i ∈ train_idx [0, 0, 0, 0, 0] 0 ∨ i ∈ test_idx [0, 0, 0, 0, 0] 0)
          ↔ i < ([0, 0, 0, 0, 0] : List Nat).length)
      ∧ ((∀ c ∈ ([0, 0, 0, 0, 0] : List Nat), 5 ∣ List.count c [0, 0, 0, 0, 0]) →
          5 * (test_idx [0, 0, 0, 0, 0] 0).length =
            ([0, 0, 0, 0, 0] : List Nat).length)) :=
  ⟨by decide, split_partition [0, 0, 0, 0, 0] 0 (by decide)⟩

/-- Claim C3 (amended): provided every class has at least 5 documents
(so that its 20% test allocation, rounded down, is at least one), the
stratified split places every class in both the train and the test
subset, the test subset holds one fifth (rounded down) of each class's
documents, and the union of the train and test label sets equals the full
label set — no class is dropped. -/
theorem split_class_coverage (y : List Nat) (seed : Nat)
    (h5 : ∀ c ∈ y, 5 ≤ y.count c) :
    (∀ c ∈ y, c ∈ train_target y seed ∧ c ∈ test_target y seed ∧
      (test_target y seed).count c = y.count c / 5)
    ∧ (∀ c, (c ∈ train_target y seed ∨ c ∈ test_target y seed) ↔ c ∈ y) := by
  have htest : ∀ c ∈ y, c ∈ test_target y seed := by
    intro c hc
    have hpos : 0 < (classTest y seed c).length := by
      rw [classTest_length]
      exact Nat.div_pos (h5 c hc) (by norm_num)
    obtain ⟨i, hi⟩ := List.exists_mem_of_length_pos hpos
    have hidx : i ∈ test_idx y seed := by
      rw [test_idx_eq, List.mem_flatten]
      exact ⟨classTest y seed c, List.mem_map_of_mem _ (mem_classesOf.mpr hc), hi⟩
    rw [test_target]
    exact List.mem_map.mpr ⟨i, hidx, (mem_classIndices.mp (mem_classTest hi)).2⟩
  have htrain : ∀ c ∈ y, c ∈ train_target y seed := by
    intro c hc
    have hcpos : 0 < y.count c := lt_of_lt_of_le (by norm_num) (h5 c hc)
    have hpos : 0 < (classTrain y seed c).length := by
      rw [classTrain_length]
      exact Nat.sub_pos_of_lt (Nat.div_lt_self hcpos (by norm_num))
    obtain ⟨i, hi⟩ := List.exists_mem_of_length_pos hpos
    have hidx : i ∈ train_idx y seed := by
      rw [train_idx_eq, List.mem_flatten]
      exact ⟨classTrain y seed c, List.mem_map_of_mem _ (mem_classesOf.mpr hc), hi⟩
    rw [train_target]
    exact List.mem_map.mpr ⟨i, hidx, (mem_classIndices.mp (mem_classTrain hi)).2⟩
  have hcount : ∀ c ∈ y, (test_target y seed).count c = y.count c / 5 := by
    intro c hc
    have hflat : test_target y seed =
        ((classesOf y).map
          (fun d => (classTest y seed d).map (fun i => y.getD i 0))).flatten := by
      rw [test_target, test_idx_eq, List.map_flatten, List.map_map]
      rfl
    rw [hflat, List.count_flatten, List.map_map]
    have hrw : (List.count c ∘ fun d =>
        (classTest y seed d).map (fun i => y.getD i 0)) =
        (fun d => List.count c ((classTest y seed d).map (fun i => y.getD i 0))) := rfl
    rw [hrw]
    have h0 : ∀ d ∈ classesOf y, d ≠ c →
        List.count c ((classTest y seed d).map (fun i => y.getD i 0)) = 0 := by
      intro d _ hdc
      rw [List.count_eq_zero]
      intro hmem
      obtain ⟨i, hi, hlab⟩ := List.mem_map.mp hmem
      exact hdc (((mem_classIndices.mp (mem_classTest hi)).2.symm.trans hlab))
    rw [sum_map_single (nodup_classesOf y) (mem_classesOf.mpr hc) _ h0]
    have hall : ∀ b ∈ (classTest y seed c).map (fun i => y.getD i 0), c = b := by
      intro b hb
      obtain ⟨i, hi, rfl⟩ := List.mem_map.mp hb
      exact ((mem_classIndices.mp (mem_classTest hi)).2).symm
    rw [List.count_eq_length.mpr hall, List.length_map, classTest_length]
  refine ⟨fun c hc => ⟨htrain c hc, htest c hc, hcount c hc⟩, ?_⟩
  intro c
  constructor
  · intro hor
    have hidx : ∃ i, (i ∈ train_idx y seed ∨ i ∈ test_idx y seed) ∧ y.getD i 0 = c := by
      rcases hor with hc | hc
      · obtain ⟨i, hi, hl⟩ := List.mem_map.mp hc
        exact ⟨i, Or.inl hi, hl⟩
      · obtain ⟨i, hi, hl⟩ := List.mem_map.mp hc
        exact ⟨i, Or.inr hi, hl⟩
    obtain ⟨i, hior, rfl⟩ := hidx
    have hlt : i < y.length := by
      have h := (split_perm_range y seed).mem_iff.mp (List.mem_append.mpr hior)
      rwa [List.mem_range] at h
    rw [List.getD_eq_getElem y 0 hlt]
    exact List.getElem_mem hlt
  · intro hc
    exact Or.inr (htest c hc)

/-- Claim C3 counterexample: on the label vector `[0]` (a corpus with one
document of one class) the class `0` is present in the full label set but
absent from the test subset, so not every class reaches both subsets. -/
theorem split_class_dropped_counterexample :
    (0 : Nat) ∈ ([0] : List Nat) ∧ ¬ (0 : Nat) ∈ test_target [0] 0 := by
  decide

theorem split_class_coverage_witness :
    (∀ c ∈ ([0, 0, 0, 0, 0] : List Nat), 5 ≤ List.count c [0, 0, 0, 0, 0]) ∧
      ((0 : Nat) ∈ train_target [0, 0, 0, 0, 0] 0 ∧
        (0 : Nat) ∈ test_target [0, 0, 0, 0, 0] 0 ∧
        (test_target [0, 0, 0, 0, 0] 0).count 0 =
          List.count 0 [0, 0, 0, 0, 0] / 5) :=
  ⟨by decide,
    (split_class_coverage [0, 0, 0, 0, 0] 0 (by decide)).1 0 (by decide)⟩

/-! ### Label lemmas -/

theorem getD_indexOf {l : List String} {s : String} (h : s ∈ l) :
    l.getD (l.indexOf s) "" = s := by
  induction l with
  | nil => cases h
  | cons a l ih =>
    by_cases hae : a = s
    · rw [List.indexOf_cons_eq l hae, List.getD_cons_zero]
      exact hae
    · rw [List.indexOf_cons_ne l hae]
      rw [List.getD_cons_succ]
      refine ih ?_
      rcases List.mem_cons.mp h with rfl | hm
      · exact absurd rfl (fun he => hae he.symm)
      · exact hm

theorem getD_map_of_lt {α β : Type} (f : α → β) (l : List α) (i : Nat)
    (d : β) (dd : α) (h : i < l.length) :
    (l.map f).getD i d = f (l.getD i dd) := by
  rw [List.getD_eq_getElem _ _ (by simpa using h), List.getD_eq_getElem _ _ h,
    List.getElem_map]

theorem mem_labels {walk : List NgFile} {s : String} :
    s ∈ labels walk ↔ s ∈ (newsgroup_files walk).map NgFile.dir := by
  simp only [labels, np_unique]
  rw [(sortBy_perm _ _).mem_iff, List.mem_dedup]

/-- The integer encoding round-trips: decoding position `i`'s label
through `labels` gives back the parent-directory name of the `i`-th
sorted file. -/
theorem target_roundtrip (walk : List NgFile) (i : Nat)
    (h : i < (newsgroup_files walk).length) :
    (labels walk).getD ((target walk).getD i 0) "" =
      ((newsgroup_files walk).getD i ⟨"", "", []⟩).dir := by
  have hdirs : i < ((newsgroup_files walk).map NgFile.dir).length := by
    simpa using h
  have htar : (target walk).getD i 0 =
      (labels walk).indexOf
        (((newsgroup_files walk).map NgFile.dir).getD i "") := by
    simp only [target, labels, np_unique]
    exact getD_map_of_lt _ _ i 0 "" hdirs
  rw [htar]
  have hmem : ((newsgroup_files walk).map NgFile.dir).getD i "" ∈ labels walk := by
    rw [mem_labels, List.getD_eq_getElem _ _ hdirs]
    exact List.getElem_mem hdirs
  rw [getD_indexOf hmem]
  exact getD_map_of_lt NgFile.dir _ i "" ⟨"", "", []⟩ h

/-! ### Claims about the corpus loader and labels -/

/-- Claim C8: the label names array is the sorted sequence of the unique
parent-directory names (duplicate-free, sorted, containing exactly the
parent-directory names of the corpus files), and the integer label vector
is its inverse encoding: decoding `target[i]` through `labels` gives the
parent-directory name of the `i`-th sorted file path. -/
theorem label_encoding (walk : List NgFile) (i : Nat)
    (h : i < (newsgroup_files walk).length) :
    (labels walk).Nodup
    ∧ (labels walk).Pairwise (fun a b => a ≤ b)
    ∧ (∀ s, s ∈ labels walk ↔ ∃ f ∈ newsgroup_files walk, f.dir = s)
    ∧ (labels walk).getD ((target walk).getD i 0) "" =
        ((newsgroup_files walk).getD i ⟨"", "", []⟩).dir := by
  refine ⟨?_, ?_, ?_, target_roundtrip walk i h⟩
  · simp only [labels, np_unique]
    exact ((sortBy_perm _ _).nodup_iff).mpr (List.nodup_dedup _)
  · simp only [labels, np_unique]
    exact (sortBy_pairwise strLe strLe_total strLe_trans _).imp
      (fun hd => (strLe_iff _ _).mp hd)
  · intro s
    rw [mem_labels, List.mem_map]

theorem label_encoding_witness :
    0 < (newsgroup_files [⟨"b", "x", ["t"]⟩, ⟨"a", "y", ["u"]⟩]).length ∧
      (labels [⟨"b", "x", ["t"]⟩, ⟨"a", "y", ["u"]⟩]).getD
          ((target [⟨"b", "x", ["t"]⟩, ⟨"a", "y", ["u"]⟩]).getD 0 0) "" =
        ((newsgroup_files [⟨"b", "x", ["t"]⟩, ⟨"a", "y", ["u"]⟩]).getD 0
            ⟨"", "", []⟩).dir :=
  ⟨by decide,
    (label_encoding [⟨"b", "x", ["t"]⟩, ⟨"a", "y", ["u"]⟩] 0 (by decide)).2.2.2⟩

/-- Claim C1: document order in the feature matrix matches label order.
For every index `i`, row `i` of the TF-IDF matrix is the vectorization of
the `i`-th path of the sorted file list, and decoding `target[i]` gives
the parent-directory name of that same path.  (The embedding is pure, so
the artifacts are write-once: nothing mutates them after construction.) -/
theorem matrix_label_alignment (sw : List String) (walk : List NgFile) (i : Nat)
    (h : i < (newsgroup_files walk).length) :
    (document_matrix sw walk).getD i [] =
      tfidfRow sw 10000 ((newsgroup_files walk).map NgFile.content)
        (((newsgroup_files walk).getD i ⟨"", "", []⟩).content)
    ∧ (labels walk).getD ((target walk).getD i 0) "" =
        ((newsgroup_files walk).getD i ⟨"", "", []⟩).dir := by
  refine ⟨?_, target_roundtrip walk i h⟩
  have hdocs : i < ((newsgroup_files walk).map NgFile.content).length := by
    simpa using h
  rw [document_matrix, fit_transform]
  rw [getD_map_of_lt _ _ i [] [] hdocs]
  rw [getD_map_of_lt NgFile.content _ i [] ⟨"", "", []⟩ h]

theorem matrix_label_alignment_witness :
    0 < (newsgroup_files [⟨"b", "x", ["t"]⟩, ⟨"a", "y", ["u"]⟩]).length ∧
      (document_matrix [] [⟨"b", "x", ["t"]⟩, ⟨"a", "y", ["u"]⟩]).getD 0 [] =
        tfidfRow [] 10000
          ((newsgroup_files [⟨"b", "x", ["t"]⟩, ⟨"a", "y", ["u"]⟩]).map
            NgFile.content)
          (((newsgroup_files [⟨"b", "x", ["t"]⟩, ⟨"a", "y", ["u"]⟩]).getD 0
              ⟨"", "", []⟩).content) :=
  ⟨by decide,
    (matrix_label_alignment [] [⟨"b", "x", ["t"]⟩, ⟨"a", "y", ["u"]⟩] 0
      (by decide)).1⟩

/-! ### Claims about the pipeline's error handling -/

/-- Claim C7: the pipeline aborts with the assertion failure exactly when
the sorted corpus file list is empty, and proceeds to produce the split
artifact otherwise.  The assertion is the only error the pipeline itself
raises. -/
theorem empty_corpus_check (sw : List String) (walk : List NgFile) :
    (pipeline1 sw walk = Except.error assertMsg ↔ walk = [])
    ∧ (¬ walk = [] → ∃ a, pipeline1 sw walk = Except.ok a) := by
  have hlen : (newsgroup_files walk).length = walk.length := sortBy_length _ _
  have hcond : ¬ walk = [] → ¬ (newsgroup_files walk).length = 0 := by
    intro hne h0
    rw [hlen] at h0
    exact hne (List.length_eq_zero.mp h0)
  constructor
  · constructor
    · intro he
      by_contra hne
      rw [pipeline1] at he
      rw [if_neg (hcond hne)] at he
      cases he
    · intro hw
      subst hw
      rfl
  · intro hne
    rw [pipeline1, if_neg (hcond hne)]
    exact ⟨_, rfl⟩

/-- Claim C10: when the corpus walk is empty the pipeline aborts before
`np.savez_compressed`, so the filesystem is returned unchanged — the
archive at `./resources/newsgroup.npz` is neither created nor modified on
the failure path. -/
theorem no_write_on_abort (sw : List String) (fs : Store) :
    run1 sw fs [] = (fs, Except.error assertMsg) := rfl

/-! ### Vectorizer lemmas and claims -/

theorem scoreLe_total (sw : List String) (docs : List (List String)) :
    ∀ a b, scoreLe sw docs a b = true ∨ scoreLe sw docs b a = true := by
  intro a b
  simp only [scoreLe, Bool.or_eq_true, Bool.and_eq_true, decide_eq_true_eq]
  rcases lt_trichotomy (termScore sw docs a) (termScore sw docs b) with h | h | h
  · exact Or.inr (Or.inl h)
  · rcases strLe_total a b with hs | hs
    · exact Or.inl (Or.inr ⟨h, hs⟩)
    · exact Or.inr (Or.inr ⟨h.symm, hs⟩)
  · exact Or.inl (Or.inl h)

theorem scoreLe_trans (sw : List String) (docs : List (List String)) :
    ∀ a b c, scoreLe sw docs a b = true → scoreLe sw docs b c = true →
      scoreLe sw docs a c = true := by
  intro a b c hab hbc
  simp only [scoreLe, Bool.or_eq_true, Bool.and_eq_true, decide_eq_true_eq]
    at hab hbc ⊢
  rcases hab with h1 | ⟨h1, hs1⟩ <;> rcases hbc with h2 | ⟨h2, hs2⟩
  · exact Or.inl (lt_trans h2 h1)
  · exact Or.inl (h2 ▸ h1)
  · refine Or.inl ?_
    rw [h1]
    exact h2
  · exact Or.inr ⟨h1.trans h2, strLe_trans a b c hs1 hs2⟩

theorem mem_corpusTerms_not_stop {sw : List String} {docs : List (List String)}
    {t : String} (h : t ∈ corpusTerms sw docs) : t ∉ sw := by
  rw [corpusTerms, List.mem_dedup, List.mem_flatten] at h
  obtain ⟨l, hl, htl⟩ := h
  obtain ⟨d, _, rfl⟩ := List.mem_map.mp hl
  rw [removeStop, List.mem_filter] at htl
  exact of_decide_eq_true htl.2

/-- Claim C5: the number of columns of the feature matrix never exceeds
the configured cap of 10,000 (and is exactly 10,000 once the corpus has
at least 10,000 distinct terms), and the retained columns are the
highest-scoring terms surviving stop-word removal: every retained term
survives removal and scores at least as high as every non-retained
term. -/
theorem vectorizer_cap (sw : List String) (docs : List (List String)) :
    (∀ row ∈ fit_transform sw 10000 docs, row.length ≤ 10000)
    ∧ (10000 ≤ (corpusTerms sw docs).length →
        (vocabulary sw 10000 docs).length = 10000)
    ∧ (∀ t ∈ vocabulary sw 10000 docs, t ∈ corpusTerms sw docs ∧ t ∉ sw)
    ∧ (∀ t ∈ vocabulary sw 10000 docs, ∀ u ∈ corpusTerms sw docs,
        u ∉ vocabulary sw 10000 docs →
          termScore sw docs u ≤ termScore sw docs t) := by
  have hvlen : (vocabulary sw 10000 docs).length =
      min 10000 (corpusTerms sw docs).length := by
    rw [vocabulary, List.length_take, sortBy_length]
  have hvmem : ∀ t ∈ vocabulary sw 10000 docs, t ∈ corpusTerms sw docs := by
    intro t ht
    rw [vocabulary] at ht
    exact (sortBy_perm _ _).mem_iff.mp (List.mem_of_mem_take ht)
  refine ⟨?_, ?_, ?_, ?_⟩
  · intro row hrow
    obtain ⟨d, _, rfl⟩ := List.mem_map.mp hrow
    rw [tfidfRow, List.length_map, hvlen]
    exact min_le_left _ _
  · intro hge
    rw [hvlen]
    exact Nat.min_eq_left hge
  · exact fun t ht => ⟨hvmem t ht, mem_corpusTerms_not_stop (hvmem t ht)⟩
  · intro t ht u hu hnu
    have hsorted := sortBy_pairwise (scoreLe sw docs) (scoreLe_total sw docs)
      (scoreLe_trans sw docs) (corpusTerms sw docs)
    have hsplit : sortBy (scoreLe sw docs) (corpusTerms sw docs) =
        vocabulary sw 10000 docs ++
          (sortBy (scoreLe sw docs) (corpusTerms sw docs)).drop 10000 := by
      rw [vocabulary, List.take_append_drop]
    have humem : u ∈ sortBy (scoreLe sw docs) (corpusTerms sw docs) :=
      (sortBy_perm _ _).mem_iff.mpr hu
    rw [hsplit] at humem hsorted
    have hudrop : u ∈ (sortBy (scoreLe sw docs) (corpusTerms sw docs)).drop 10000 := by
      rcases List.mem_append.mp humem with hv | hv
      · exact absurd hv hnu
      · exact hv
    have hrel := (List.pairwise_append.mp hsorted).2.2 t ht u hudrop
    simp only [scoreLe, Bool.or_eq_true, Bool.and_eq_true, decide_eq_true_eq] at hrel
    rcases hrel with h | ⟨h, _⟩
    · exact le_of_lt h
    · exact le_of_eq h.symm

/-- Claim C6 (amended): the feature matrix is a dense matrix with one row
per document; each row's width is `min 10000 (#distinct terms)` — the cap
when the corpus has at least 10,000 distinct non-stop terms, and the
number of distinct terms otherwise. -/
theorem matrix_shape (sw : List String) (docs : List (List String)) :
    (fit_transform sw 10000 docs).length = docs.length
    ∧ ∀ row ∈ fit_transform sw 10000 docs,
        row.length = min 10000 (corpusTerms sw docs).length := by
  constructor
  · rw [fit_transform, List.length_map]
  · intro row hrow
    obtain ⟨d, _, rfl⟩ := List.mem_map.mp hrow
    rw [tfidfRow, List.length_map, vocabulary, List.length_take, sortBy_length]

/-- Claim C6 counterexample: a one-document corpus with one distinct term
yields a matrix with one row of width 1, not width 10,000. -/
theorem matrix_width_counterexample :
    (fit_transform [] 10000 [["a"]]).length = 1
    ∧ ((fit_transform [] 10000 [["a"]]).getD 0 []).length = 1
    ∧ ¬ ((fit_transform [] 10000 [["a"]]).getD 0 []).length = 10000 := by
  decide

/-! ### Evaluator claim -/

/-- Claim C9: for every prediction function and test set, the reported
accuracy lies in `[0, 1]` and, on a non-empty test set, recomputes from
the confusion counts: accuracy times the number of test documents equals
the number of documents whose predicted label equals the true label. -/
theorem accuracy_in_range (predict : List ℚ → Nat) (td : List (List ℚ))
    (tt : List Nat) (h : td.length = tt.length) :
    0 ≤ evalAccuracy predict td tt ∧ evalAccuracy predict td tt ≤ 1
    ∧ (tt ≠ [] → evalAccuracy predict td tt * (tt.length : ℚ) =
        ((tt.zip (td.map predict)).countP (fun p => p.1 == p.2) : ℚ)) := by
  have hacc : evalAccuracy predict td tt =
      (((tt.zip (td.map predict)).countP (fun p => p.1 == p.2) : ℚ)) /
        ((tt.length : ℚ)) := rfl
  have hmle : (tt.zip (td.map predict)).countP (fun p => p.1 == p.2) ≤
      tt.length := by
    calc (tt.zip (td.map predict)).countP (fun p => p.1 == p.2)
        ≤ (tt.zip (td.map predict)).length := List.countP_le_length _
      _ = min tt.length (td.map predict).length := List.length_zip _ _
      _ ≤ tt.length := min_le_left _ _
  refine ⟨?_, ?_, ?_⟩
  · rw [hacc]
    positivity
  · rw [hacc]
    rcases Nat.eq_zero_or_pos tt.length with h0 | hpos
    · rw [h0]
      simp
    · rw [div_le_one (by exact_mod_cast hpos)]
      exact_mod_cast hmle
  · intro hne
    have hne0 : ((tt.length : ℚ)) ≠ 0 :=
      Nat.cast_ne_zero.mpr (fun h0 => hne (List.length_eq_zero.mp h0))
    rw [hacc, div_mul_cancel₀ _ hne0]

theorem accuracy_in_range_witness :
    ([[(1 : ℚ)]] : List (List ℚ)).length = ([0] : List Nat).length ∧
      (0 ≤ evalAccuracy (fun _ => 0) [[(1 : ℚ)]] [0] ∧
        evalAccuracy (fun _ => 0) [[(1 : ℚ)]] [0] ≤ 1 ∧
        (([0] : List Nat) ≠ [] →
          evalAccuracy (fun _ => 0) [[(1 : ℚ)]] [0] *
              ((([0] : List Nat).length : ℚ)) =
            (((([0] : List Nat).zip
                  (([[(1 : ℚ)]] : List (List ℚ)).map (fun _ => 0))).countP
                (fun p => p.1 == p.2) : ℚ)))) :=
  ⟨rfl, accuracy_in_range (fun _ => 0) [[(1 : ℚ)]] [0] rfl⟩

end Newsgroup
